import Mathlib

/-!
Verification of the arse streaming scene-file parser (src/lib.rs).

The first half embeds the nom streaming combinators used by the source and
the grammar recognizers built from them (comment, spacelike, name,
node_name, node_body, node_parser, root).  The second half embeds the
Iterator implementation on ArseParser: the byte source is modelled as the
list of chunks successive reads deliver, a failing read (I/O error or
invalid UTF-8, both of which the source unwraps into a panic) is a bad
chunk, and one call to next is the fill/recognize loop of the source.
-/

/-- Result of running a streaming recognizer on a slice: success with the
unconsumed remainder, a request for more input (nom Err::Incomplete), or a
hard mismatch (nom Err::Error). -/
inductive PResult (α : Type) where
  | ok (rest : List Char) (val : α)
  | incomplete
  | error
deriving DecidableEq, Repr

abbrev Parser (α : Type) : Type := List Char → PResult α

/-- Model of nom character::streaming::char: one expected character;
incomplete on empty input, error on a mismatch. -/
def charP (c : Char) : Parser Char := fun s =>
  match s with
  | [] => .incomplete
  | a :: rest => if a = c then .ok rest c else .error

/-- Model of nom bytes::streaming::take_while: the maximal prefix whose
characters satisfy f; incomplete when the whole input satisfies f, since
the streaming variant cannot rule out a longer match. -/
def takeWhileP (f : Char → Bool) : Parser (List Char) := fun s =>
  if s.dropWhile f = [] then .incomplete
  else .ok (s.dropWhile f) (s.takeWhile f)

/-- Model of nom bytes::streaming::is_not: the maximal prefix avoiding the
characters of bad; incomplete when no character of bad occurs, error when
the match would be empty. -/
def isNotP (bad : List Char) : Parser (List Char) := fun s =>
  if s.dropWhile (fun c => !(bad.contains c)) = [] then .incomplete
  else if s.takeWhile (fun c => !(bad.contains c)) = [] then .error
  else .ok (s.dropWhile (fun c => !(bad.contains c)))
    (s.takeWhile (fun c => !(bad.contains c)))

/-- Character-by-character comparison of a literal against the start of the
input, as nom's compare does for bytes::streaming::tag. -/
def matchLit : List Char → List Char → PResult Unit
  | [], s => .ok s ()
  | _ :: _, [] => .incomplete
  | a :: t, b :: s => if b = a then matchLit t s else .error

/-- Model of nom bytes::streaming::tag. -/
def tagP (t : List Char) : Parser (List Char) := fun s =>
  match matchLit t s with
  | .ok r _ => .ok r t
  | .incomplete => .incomplete
  | .error => .error

/-- Does the literal t occur at the start of s (s being long enough)? -/
def startsWith : List Char → List Char → Bool
  | [], _ => true
  | _ :: _, [] => false
  | a :: t, b :: s => b = a && startsWith t s

/-- Split s at the first occurrence of the literal t: the part before the
occurrence and the remainder beginning with t; none when t never occurs. -/
def splitUntil (t : List Char) : List Char → Option (List Char × List Char)
  | [] => if startsWith t [] then some ([], []) else none
  | a :: s =>
    if startsWith t (a :: s) then some ([], a :: s)
    else
      match splitUntil t s with
      | some (pre, rest) => some (a :: pre, rest)
      | none => none

/-- Model of nom bytes::streaming::take_until: everything before the first
occurrence of t, leaving t unconsumed; incomplete when t is not found. -/
def takeUntilP (t : List Char) : Parser (List Char) := fun s =>
  match splitUntil t s with
  | some (pre, rest) => .ok rest pre
  | none => .incomplete

/-- Model of nom combinator::map. -/
def mapP {α β : Type} (p : Parser α) (f : α → β) : Parser β := fun s =>
  match p s with
  | .ok r v => .ok r (f v)
  | .incomplete => .incomplete
  | .error => .error

/-- Model of nom sequence::pair. -/
def pairP {α β : Type} (p : Parser α) (q : Parser β) : Parser (α × β) := fun s =>
  match p s with
  | .ok r v =>
    match q r with
    | .ok r2 w => .ok r2 (v, w)
    | .incomplete => .incomplete
    | .error => .error
  | .incomplete => .incomplete
  | .error => .error

/-- Model of nom sequence::preceded. -/
def precededP {α β : Type} (p : Parser α) (q : Parser β) : Parser β :=
  mapP (pairP p q) (fun x => x.2)

/-- Model of nom sequence::delimited. -/
def delimitedP {α β γ : Type} (p : Parser α) (q : Parser β) (r : Parser γ) : Parser β :=
  mapP (pairP p (pairP q r)) (fun x => x.2.1)

/-- Model of nom branch::alt on two alternatives: the second runs only when
the first returns a hard error; incomplete is propagated immediately. -/
def altP {α : Type} (p q : Parser α) : Parser α := fun s =>
  match p s with
  | .ok r v => .ok r v
  | .incomplete => .incomplete
  | .error => q s

/-- Source fn comment: lines starting with a hash, up to the newline. -/
def comment : Parser (List Char) :=
  delimitedP (charP '#') (isNotP ['\n']) (charP '\n')

/-- The characters the source constant SPACELIKE_CHARS holds. -/
def SPACELIKE_CHARS : List Char := [' ', '\t', '\r', '\n']

/-- Source fn spacelike: take_while over the spacelike characters. -/
def spacelike : Parser (List Char) :=
  takeWhileP (fun c => SPACELIKE_CHARS.contains c)

/-- The character set excluded by the source fn name. -/
def nameExcluded : List Char := [' ', '\t', '\r', '\n', '{', '}', '[', ']', '(', ')']

/-- Source fn name: is_not over spacelike characters, brackets and braces. -/
def name : Parser (List Char) := isNotP nameExcluded

/-- The literal that introduces the name parameter. -/
def nameLit : List Char := ['n', 'a', 'm', 'e', ' ']

/-- Source fn node_name: the name value delimited by the literal and
trailing spacelike. -/
def node_name : Parser (List Char) := delimitedP (tagP nameLit) name spacelike

/-- Source fn node_body: a braced body, scanning to the name parameter and
then to the closing brace. -/
def node_body : Parser (List Char) :=
  delimitedP (charP '{')
    (delimitedP (takeUntilP nameLit) node_name (takeUntilP ['}']))
    (charP '}')

/-- Source struct Node. -/
structure Node where
  node_type : List Char
  name : List Char
deriving DecidableEq, Repr

/-- Source fn node_parser: leading spacelike, the type name, spacelike, and
the body. -/
def nodeParser : Parser (List Char × List Char) :=
  pairP (precededP spacelike name) (precededP spacelike node_body)

/-- Source enum RootElement. -/
inductive RootElement where
  | node (n : Node)
  | comment (c : List Char)
deriving DecidableEq, Repr

/-- Source fn root: a comment, or else a node. -/
def root : Parser RootElement :=
  altP (mapP comment (fun c => RootElement.comment c))
    (mapP nodeParser (fun n => RootElement.node ⟨n.1, n.2⟩))

/-- One chunk delivered by a read of the byte source: either bytes that
decode to text, or a failing read (I/O error, or bytes that are not valid
UTF-8 text). -/
inductive Chunk where
  | good (data : List Char)
  | bad
deriving DecidableEq, Repr

/-- The text a chunk contributes when it decodes. -/
def chunkData : Chunk → List Char
  | .good d => d
  | .bad => []

/-- Source struct ArseParser: the BufReader capacity, the pending text
buffer, and the chunks the byte source will deliver on successive reads. -/
structure ArseParser where
  capacity : Nat
  buffer : List Char
  chunks : List Chunk
deriving DecidableEq, Repr

/-- Source ArseParser::new (BufReader::new uses the 8 KiB default). -/
def ArseParser.new (chunks : List Chunk) : ArseParser := ⟨8192, [], chunks⟩

/-- Source ArseParser::with_capacity: the capacity argument is unused and a
4 MiB BufReader is allocated instead. -/
def ArseParser.with_capacity (chunks : List Chunk) (capacity : Nat) : ArseParser :=
  ⟨4 * 1024 * 1024, [], chunks⟩

/-- Source ArseParser::fill: one read of the source; none models the
panicking unwrap on a failed read or failed UTF-8 decode, otherwise the
number of bytes read and the state with the decoded text appended. -/
def fill (p : ArseParser) : Option (Nat × ArseParser) :=
  match p.chunks with
  | [] => some (0, p)
  | .bad :: _ => none
  | .good c :: cs => some (c.length, ⟨p.capacity, p.buffer ++ c, cs⟩)

/-- Which branch of the source loop returned None. -/
inductive StopReason where
  | emptyEof
  | incompleteEof
  | syntaxError
deriving DecidableEq, Repr

/-- Outcome of one call to next: a yielded node with the successor state, a
None return (tagged with the branch that produced it) together with the
mutated state, or a panic inside fill. -/
inductive NextResult where
  | yield (n : Node) (p : ArseParser)
  | stop (r : StopReason) (p : ArseParser)
  | panik
deriving DecidableEq, Repr

/-- Every chunk costs its text length plus one, so that consuming a chunk
strictly shrinks the measure even when its text is empty. -/
def chunkMeasure (c : Chunk) : Nat := (chunkData c).length + 1

/-- Termination measure for the fill/recognize loop. -/
def measureP (p : ArseParser) : Nat :=
  p.buffer.length + (p.chunks.map chunkMeasure).sum

/-- Fuelled model of the loop in the source impl Iterator::next: fill, stop
on an empty buffer, recognize a root element, skip comments, refill on
incomplete, and give up at end of source or on a hard error. -/
def nextNodeF : Nat → ArseParser → NextResult
  | 0, p => .stop .emptyEof p
  | fuel + 1, p =>
    match fill p with
    | none => .panik
    | some (read, p1) =>
      if p1.buffer = [] then .stop .emptyEof p1
      else
        match root p1.buffer with
        | .ok rest (.node n) => .yield n ⟨p1.capacity, rest, p1.chunks⟩
        | .ok rest (.comment _) => nextNodeF fuel ⟨p1.capacity, rest, p1.chunks⟩
        | .incomplete => if read = 0 then .stop .incompleteEof p1 else nextNodeF fuel p1
        | .error => .stop .syntaxError p1

/-- One call to next, run with enough fuel for its measure. -/
def nextNode (p : ArseParser) : NextResult := nextNodeF (measureP p + 1) p

/-- Fuelled draining of the iterator. -/
def runParserF : Nat → ArseParser → List Node
  | 0, _ => []
  | fuel + 1, p =>
    match nextNode p with
    | .yield n q => n :: runParserF fuel q
    | .stop _ _ => []
    | .panik => []

/-- The full record sequence the iterator produces. -/
def runParser (p : ArseParser) : List Node := runParserF (measureP p + 1) p

/-- Result of the k-th successive call to next: calls continue from the
mutated state even after a None return; a panic is terminal. -/
def callN : Nat → ArseParser → NextResult
  | 0, p => nextNode p
  | k + 1, p =>
    match nextNode p with
    | .yield _ q => callN k q
    | .stop _ q => callN k q
    | .panik => .panik

/-- Whether a call outcome yielded a record. -/
def isYield : NextResult → Bool
  | .yield _ _ => true
  | _ => false

/-- All the text the parser will ever see from a state: the pending buffer
followed by the text of the chunks still to be read. -/
def srcText (p : ArseParser) : List Char := p.buffer ++ (p.chunks.map chunkData).flatten

/-- Chunk lists that model a healthy exhausted-only-at-the-end source: every
read succeeds and delivers at least one byte. -/
def goodChunks (l : List Chunk) : Prop := ∀ c ∈ l, ∃ d, c = Chunk.good d ∧ d ≠ []

/-! List helper lemmas about takeWhile, dropWhile and literal search. -/

theorem dropWhile_append_ne_nil {f : Char → Bool} {s : List Char} (t : List Char)
    (h : s.dropWhile f ≠ []) : (s ++ t).dropWhile f = s.dropWhile f ++ t := by
  induction s with
  | nil => simp [List.dropWhile] at h
  | cons a s ih =>
    by_cases hf : f a
    · simp only [List.dropWhile_cons, hf, if_true] at h
      simp only [List.cons_append, List.dropWhile_cons, hf, if_true]
      exact ih h
    · simp [List.cons_append, List.dropWhile_cons, hf]

theorem takeWhile_append_ne_nil {f : Char → Bool} {s : List Char} (t : List Char)
    (h : s.dropWhile f ≠ []) : (s ++ t).takeWhile f = s.takeWhile f := by
  induction s with
  | nil => simp [List.dropWhile] at h
  | cons a s ih =>
    by_cases hf : f a
    · simp only [List.dropWhile_cons, hf, if_true] at h
      simp only [List.cons_append, List.takeWhile_cons, hf, if_true]
      simpa using ih h
    · simp [List.cons_append, List.takeWhile_cons, hf]

theorem length_dropWhile_le_len (f : Char → Bool) (s : List Char) :
    (s.dropWhile f).length ≤ s.length := by
  conv_rhs => rw [← List.takeWhile_append_dropWhile (p := f) (l := s)]
  rw [List.length_append]
  omega

theorem length_dropWhile_lt_of_takeWhile_ne_nil {f : Char → Bool} {s : List Char}
    (h : s.takeWhile f ≠ []) : (s.dropWhile f).length < s.length := by
  conv_rhs => rw [← List.takeWhile_append_dropWhile (p := f) (l := s)]
  rw [List.length_append]
  have : 0 < (s.takeWhile f).length := List.length_pos.2 h
  omega

/-! Properties of the streaming primitives: success survives extending the
input on the right (Mono), hard errors survive it too (ErrStable), and a
success never grows the remainder (NoGrow), strictly shrinking it for the
primitives that must consume at least one character (Strict). -/

def Mono {α : Type} (p : Parser α) : Prop :=
  ∀ s t r v, p s = .ok r v → p (s ++ t) = .ok (r ++ t) v

def ErrStable {α : Type} (p : Parser α) : Prop :=
  ∀ s t, p s = .error → p (s ++ t) = .error

def NoGrow {α : Type} (p : Parser α) : Prop :=
  ∀ s r v, p s = .ok r v → r.length ≤ s.length

def Strict {α : Type} (p : Parser α) : Prop :=
  ∀ s r v, p s = .ok r v → r.length < s.length

theorem strict_nogrow {α : Type} {p : Parser α} (h : Strict p) : NoGrow p :=
  fun s r v hs => Nat.le_of_lt (h s r v hs)

theorem charP_mono (c : Char) : Mono (charP c) := by
  intro s t r v h
  match s with
  | [] => simp [charP] at h
  | a :: s' =>
    by_cases ha : a = c
    · simp only [charP, ha, if_true] at h
      injection h with h1 h2
      simp [charP, List.cons_append, ha, ← h1, ← h2]
    · simp [charP, ha] at h

theorem charP_errstable (c : Char) : ErrStable (charP c) := by
  intro s t h
  match s with
  | [] => simp [charP] at h
  | a :: s' =>
    by_cases ha : a = c
    · simp [charP, ha] at h
    · simp [charP, ha]

theorem charP_strict (c : Char) : Strict (charP c) := by
  intro s r v h
  match s with
  | [] => simp [charP] at h
  | a :: s' =>
    by_cases ha : a = c
    · simp only [charP, ha, if_true] at h
      injection h with h1 h2
      simp [← h1]
    · simp [charP, ha] at h

theorem takeWhileP_mono (f : Char → Bool) : Mono (takeWhileP f) := by
  intro s t r v h
  simp only [takeWhileP] at h ⊢
  by_cases hne : s.dropWhile f = []
  · simp [hne] at h
  · rw [if_neg hne] at h
    injection h with h1 h2
    rw [dropWhile_append_ne_nil t hne, takeWhile_append_ne_nil t hne]
    rw [if_neg (fun hc => hne (List.append_eq_nil.mp hc).1), h1, h2]

theorem takeWhileP_errstable (f : Char → Bool) : ErrStable (takeWhileP f) := by
  intro s t h
  simp only [takeWhileP] at h
  by_cases hne : s.dropWhile f = [] <;> simp [hne] at h

theorem takeWhileP_nogrow (f : Char → Bool) : NoGrow (takeWhileP f) := by
  intro s r v h
  simp only [takeWhileP] at h
  by_cases hne : s.dropWhile f = []
  · simp [hne] at h
  · rw [if_neg hne] at h
    injection h with h1 h2
    rw [← h1]
    exact length_dropWhile_le_len f s

theorem isNotP_mono (bad : List Char) : Mono (isNotP bad) := by
  intro s t r v h
  simp only [isNotP] at h ⊢
  by_cases hne : s.dropWhile (fun c => !(bad.contains c)) = []
  · rw [if_pos hne] at h
    exact PResult.noConfusion h
  · rw [if_neg hne] at h
    by_cases htk : s.takeWhile (fun c => !(bad.contains c)) = []
    · rw [if_pos htk] at h
      exact PResult.noConfusion h
    · rw [if_neg htk] at h
      injection h with h1 h2
      rw [dropWhile_append_ne_nil t hne, takeWhile_append_ne_nil t hne]
      rw [if_neg (fun hc => hne (List.append_eq_nil.mp hc).1), if_neg htk, h1, h2]

theorem isNotP_errstable (bad : List Char) : ErrStable (isNotP bad) := by
  intro s t h
  simp only [isNotP] at h ⊢
  by_cases hne : s.dropWhile (fun c => !(bad.contains c)) = []
  · rw [if_pos hne] at h
    exact PResult.noConfusion h
  · rw [if_neg hne] at h
    by_cases htk : s.takeWhile (fun c => !(bad.contains c)) = []
    · rw [dropWhile_append_ne_nil t hne, takeWhile_append_ne_nil t hne]
      rw [if_neg (fun hc => hne (List.append_eq_nil.mp hc).1), if_pos htk]
    · rw [if_neg htk] at h
      exact PResult.noConfusion h

theorem isNotP_strict (bad : List Char) : Strict (isNotP bad) := by
  intro s r v h
  simp only [isNotP] at h
  by_cases hne : s.dropWhile (fun c => !(bad.contains c)) = []
  · rw [if_pos hne] at h
    exact PResult.noConfusion h
  · rw [if_neg hne] at h
    by_cases htk : s.takeWhile (fun c => !(bad.contains c)) = []
    · rw [if_pos htk] at h
      exact PResult.noConfusion h
    · rw [if_neg htk] at h
      injection h with h1 h2
      rw [← h1]
      exact length_dropWhile_lt_of_takeWhile_ne_nil htk

theorem matchLit_ok_append :
    ∀ (t s w r : List Char) (u : Unit), matchLit t s = .ok r u →
      matchLit t (s ++ w) = .ok (r ++ w) u := by
  intro t
  induction t with
  | nil =>
    intro s w r u h
    simp only [matchLit] at h ⊢
    injection h with h1 h2
    rw [h1]
  | cons a t ih =>
    intro s w r u h
    match s with
    | [] => exact PResult.noConfusion h
    | b :: s' =>
      simp only [matchLit] at h ⊢
      by_cases hb : b = a
      · rw [if_pos hb] at h
        rw [if_pos hb]
        exact ih s' w r u h
      · rw [if_neg hb] at h
        exact PResult.noConfusion h

theorem matchLit_err_append :
    ∀ (t s w : List Char), matchLit t s = .error → matchLit t (s ++ w) = .error := by
  intro t
  induction t with
  | nil =>
    intro s w h
    exact PResult.noConfusion h
  | cons a t ih =>
    intro s w h
    match s with
    | [] => exact PResult.noConfusion h
    | b :: s' =>
      simp only [matchLit] at h ⊢
      by_cases hb : b = a
      · rw [if_pos hb] at h
        rw [if_pos hb]
        exact ih s' w h
      · rw [if_neg hb]

theorem matchLit_len :
    ∀ (t s r : List Char) (u : Unit), matchLit t s = .ok r u → r.length ≤ s.length := by
  intro t
  induction t with
  | nil =>
    intro s r u h
    injection h with h1 _
    rw [h1]
  | cons a t ih =>
    intro s r u h
    match s with
    | [] => exact PResult.noConfusion h
    | b :: s' =>
      simp only [matchLit] at h
      by_cases hb : b = a
      · rw [if_pos hb] at h
        have := ih s' r u h
        simp only [List.length_cons]
        omega
      · rw [if_neg hb] at h
        exact PResult.noConfusion h

theorem tagP_mono (t : List Char) : Mono (tagP t) := by
  intro s w r v h
  simp only [tagP] at h ⊢
  cases hm : matchLit t s with
  | ok r' u =>
    rw [hm] at h
    injection h with h1 h2
    rw [matchLit_ok_append t s w r' u hm, h1, h2]
  | incomplete => rw [hm] at h; exact PResult.noConfusion h
  | error => rw [hm] at h; exact PResult.noConfusion h

theorem tagP_errstable (t : List Char) : ErrStable (tagP t) := by
  intro s w h
  simp only [tagP] at h ⊢
  cases hm : matchLit t s with
  | ok r' u => rw [hm] at h; exact PResult.noConfusion h
  | incomplete => rw [hm] at h; exact PResult.noConfusion h
  | error => rw [matchLit_err_append t s w hm]

theorem tagP_nogrow (t : List Char) : NoGrow (tagP t) := by
  intro s r v h
  simp only [tagP] at h
  cases hm : matchLit t s with
  | ok r' u =>
    rw [hm] at h
    injection h with h1 h2
    rw [← h1]
    exact matchLit_len t s r' u hm
  | incomplete => rw [hm] at h; exact PResult.noConfusion h
  | error => rw [hm] at h; exact PResult.noConfusion h

theorem startsWith_true_append {t s : List Char} (u : List Char)
    (h : startsWith t s = true) : startsWith t (s ++ u) = true := by
  induction t generalizing s with
  | nil => simp [startsWith]
  | cons a t ih =>
    match s with
    | [] => exact Bool.noConfusion h
    | b :: s' =>
      simp only [startsWith, Bool.and_eq_true] at h
      simp only [List.cons_append, startsWith, Bool.and_eq_true]
      exact ⟨h.1, ih h.2⟩

theorem startsWith_len {t s : List Char} (h : startsWith t s = true) :
    t.length ≤ s.length := by
  induction t generalizing s with
  | nil => simp
  | cons a t ih =>
    match s with
    | [] => exact Bool.noConfusion h
    | b :: s' =>
      simp only [startsWith, Bool.and_eq_true] at h
      have := ih h.2
      simp only [List.length_cons]
      omega

theorem startsWith_false_append {t s : List Char} (u : List Char)
    (hlen : t.length ≤ s.length) (h : startsWith t s = false) :
    startsWith t (s ++ u) = false := by
  induction t generalizing s with
  | nil => exact Bool.noConfusion h
  | cons a t ih =>
    match s with
    | [] => simp at hlen
    | b :: s' =>
      simp only [startsWith, Bool.and_eq_true, Bool.and_eq_false_iff] at h
      simp only [List.cons_append, startsWith, Bool.and_eq_false_iff]
      rcases h with h | h
      · exact Or.inl h
      · refine Or.inr (ih ?_ h)
        simp only [List.length_cons] at hlen
        omega

theorem splitUntil_some_startsWith {t s a b : List Char}
    (h : splitUntil t s = some (a, b)) : startsWith t b = true := by
  induction s generalizing a b with
  | nil =>
    simp only [splitUntil] at h
    by_cases hs : startsWith t [] = true
    · rw [if_pos hs] at h
      injection h with h1
      injection h1 with h2 h3
      rw [← h3]
      exact hs
    · rw [if_neg hs] at h
      exact Option.noConfusion h
  | cons c s ih =>
    simp only [splitUntil] at h
    by_cases hs : startsWith t (c :: s) = true
    · rw [if_pos hs] at h
      injection h with h1
      injection h1 with h2 h3
      rw [← h3]
      exact hs
    · rw [if_neg hs] at h
      cases hsp : splitUntil t s with
      | some pr =>
        rw [hsp] at h
        injection h with h1
        injection h1 with h2 h3
        exact h3 ▸ ih (by rw [hsp])
      | none => rw [hsp] at h; exact Option.noConfusion h

theorem splitUntil_some_eq {t s a b : List Char}
    (h : splitUntil t s = some (a, b)) : s = a ++ b := by
  induction s generalizing a b with
  | nil =>
    simp only [splitUntil] at h
    by_cases hs : startsWith t [] = true
    · rw [if_pos hs] at h
      injection h with h1
      injection h1 with h2 h3
      rw [← h2, ← h3]
      rfl
    · rw [if_neg hs] at h
      exact Option.noConfusion h
  | cons c s ih =>
    simp only [splitUntil] at h
    by_cases hs : startsWith t (c :: s) = true
    · rw [if_pos hs] at h
      injection h with h1
      injection h1 with h2 h3
      rw [← h2, ← h3]
      rfl
    · rw [if_neg hs] at h
      cases hsp : splitUntil t s with
      | some pr =>
        rw [hsp] at h
        injection h with h1
        injection h1 with h2 h3
        have : s = pr.1 ++ pr.2 := ih (by rw [hsp])
        rw [← h2, ← h3, List.cons_append, ← this]
      | none => rw [hsp] at h; exact Option.noConfusion h

theorem splitUntil_append_some {t s a b : List Char} (u : List Char)
    (h : splitUntil t s = some (a, b)) : splitUntil t (s ++ u) = some (a, b ++ u) := by
  induction s generalizing a b with
  | nil =>
    simp only [splitUntil] at h
    by_cases hs : startsWith t [] = true
    · rw [if_pos hs] at h
      injection h with h1
      injection h1 with h2 h3
      have ht : t = [] := List.eq_nil_of_length_eq_zero (by have := startsWith_len hs; simpa using this)
      rw [← h2, ← h3]
      match u with
      | [] => simp [splitUntil, ht, startsWith]
      | c :: u' => simp [splitUntil, ht, startsWith]
    · rw [if_neg hs] at h
      exact Option.noConfusion h
  | cons c s ih =>
    simp only [splitUntil] at h
    by_cases hs : startsWith t (c :: s) = true
    · rw [if_pos hs] at h
      injection h with h1
      injection h1 with h2 h3
      have hsu : startsWith t (c :: (s ++ u)) = true := by
        have := startsWith_true_append u hs
        rwa [List.cons_append] at this
      simp only [List.cons_append, splitUntil, List.append_eq]
      rw [if_pos hsu, ← h2, ← h3]
      simp
    · rw [if_neg hs] at h
      cases hsp : splitUntil t s with
      | some pr =>
        rw [hsp] at h
        injection h with h1
        injection h1 with h2 h3
        have hb : startsWith t pr.2 = true := splitUntil_some_startsWith (by rw [hsp])
        have hseq : s = pr.1 ++ pr.2 := splitUntil_some_eq (by rw [hsp])
        have hlen : t.length ≤ (c :: s).length := by
          have h1len : t.length ≤ pr.2.length := startsWith_len hb
          have h2len : pr.2.length ≤ s.length := by
            rw [hseq, List.length_append]; omega
          simp only [List.length_cons]
          omega
        have hsf : startsWith t (c :: s) = false := by
          revert hs; cases startsWith t (c :: s) <;> simp
        have hsfu : startsWith t (c :: (s ++ u)) = false := by
          have := startsWith_false_append u hlen hsf
          rwa [List.cons_append] at this
        simp only [List.cons_append, splitUntil, List.append_eq]
        rw [if_neg (by simp [hsfu])]
        rw [ih (b := pr.2) (a := pr.1) (by rw [hsp])]
        rw [← h2, ← h3]
      | none => rw [hsp] at h; exact Option.noConfusion h

theorem takeUntilP_mono (t : List Char) : Mono (takeUntilP t) := by
  intro s u r v h
  simp only [takeUntilP] at h ⊢
  cases hsp : splitUntil t s with
  | some pr =>
    rw [hsp] at h
    injection h with h1 h2
    rw [splitUntil_append_some u (by rw [hsp] : splitUntil t s = some (pr.1, pr.2))]
    rw [h1, h2]
  | none => rw [hsp] at h; exact PResult.noConfusion h

theorem takeUntilP_errstable (t : List Char) : ErrStable (takeUntilP t) := by
  intro s u h
  simp only [takeUntilP] at h
  cases hsp : splitUntil t s with
  | some pr => rw [hsp] at h; exact PResult.noConfusion h
  | none => rw [hsp] at h; exact PResult.noConfusion h

theorem takeUntilP_nogrow (t : List Char) : NoGrow (takeUntilP t) := by
  intro s r v h
  simp only [takeUntilP] at h
  cases hsp : splitUntil t s with
  | some pr =>
    rw [hsp] at h
    injection h with h1 h2
    have := splitUntil_some_eq (by rw [hsp] : splitUntil t s = some (pr.1, pr.2))
    rw [← h1, this, List.length_append]
    omega
  | none => rw [hsp] at h; exact PResult.noConfusion h

theorem mapP_mono {α β : Type} {p : Parser α} (f : α → β) (hp : Mono p) :
    Mono (mapP p f) := by
  intro s t r v h
  cases hps : p s with
  | ok r' v' =>
    simp only [mapP, hps] at h
    injection h with h1 h2
    simp only [mapP, hp s t r' v' hps]
    rw [h1, h2]
  | incomplete => simp [mapP, hps] at h
  | error => simp [mapP, hps] at h

theorem mapP_errstable {α β : Type} {p : Parser α} (f : α → β) (hp : ErrStable p) :
    ErrStable (mapP p f) := by
  intro s t h
  cases hps : p s with
  | ok r' v' => simp [mapP, hps] at h
  | incomplete => simp [mapP, hps] at h
  | error => simp [mapP, hp s t hps]

theorem mapP_nogrow {α β : Type} {p : Parser α} (f : α → β) (hp : NoGrow p) :
    NoGrow (mapP p f) := by
  intro s r v h
  cases hps : p s with
  | ok r' v' =>
    simp only [mapP, hps] at h
    injection h with h1 h2
    exact h1 ▸ hp s r' v' hps
  | incomplete => simp [mapP, hps] at h
  | error => simp [mapP, hps] at h

theorem mapP_strict {α β : Type} {p : Parser α} (f : α → β) (hp : Strict p) :
    Strict (mapP p f) := by
  intro s r v h
  cases hps : p s with
  | ok r' v' =>
    simp only [mapP, hps] at h
    injection h with h1 h2
    exact h1 ▸ hp s r' v' hps
  | incomplete => simp [mapP, hps] at h
  | error => simp [mapP, hps] at h

theorem pairP_mono {α β : Type} {p : Parser α} {q : Parser β}
    (hp : Mono p) (hq : Mono q) : Mono (pairP p q) := by
  intro s t r v h
  cases hps : p s with
  | ok r1 v1 =>
    cases hqs : q r1 with
    | ok r2 v2 =>
      simp only [pairP, hps, hqs] at h
      injection h with h1 h2
      simp only [pairP, hp s t r1 v1 hps, hq r1 t r2 v2 hqs]
      rw [h1, h2]
    | incomplete => simp [pairP, hps, hqs] at h
    | error => simp [pairP, hps, hqs] at h
  | incomplete => simp [pairP, hps] at h
  | error => simp [pairP, hps] at h

theorem pairP_errstable {α β : Type} {p : Parser α} {q : Parser β}
    (hp : Mono p) (hpe : ErrStable p) (hqe : ErrStable q) : ErrStable (pairP p q) := by
  intro s t h
  cases hps : p s with
  | ok r1 v1 =>
    cases hqs : q r1 with
    | ok r2 v2 => simp [pairP, hps, hqs] at h
    | incomplete => simp [pairP, hps, hqs] at h
    | error => simp [pairP, hp s t r1 v1 hps, hqe r1 t hqs]
  | incomplete => simp [pairP, hps] at h
  | error => simp [pairP, hpe s t hps]

theorem pairP_nogrow {α β : Type} {p : Parser α} {q : Parser β}
    (hp : NoGrow p) (hq : NoGrow q) : NoGrow (pairP p q) := by
  intro s r v h
  cases hps : p s with
  | ok r1 v1 =>
    cases hqs : q r1 with
    | ok r2 v2 =>
      simp only [pairP, hps, hqs] at h
      injection h with h1 h2
      subst h1
      have e1 := hp s r1 v1 hps
      have e2 := hq r1 r2 v2 hqs
      omega
    | incomplete => simp [pairP, hps, hqs] at h
    | error => simp [pairP, hps, hqs] at h
  | incomplete => simp [pairP, hps] at h
  | error => simp [pairP, hps] at h

theorem pairP_strict_left {α β : Type} {p : Parser α} {q : Parser β}
    (hp : Strict p) (hq : NoGrow q) : Strict (pairP p q) := by
  intro s r v h
  cases hps : p s with
  | ok r1 v1 =>
    cases hqs : q r1 with
    | ok r2 v2 =>
      simp only [pairP, hps, hqs] at h
      injection h with h1 h2
      subst h1
      have e1 := hp s r1 v1 hps
      have e2 := hq r1 r2 v2 hqs
      omega
    | incomplete => simp [pairP, hps, hqs] at h
    | error => simp [pairP, hps, hqs] at h
  | incomplete => simp [pairP, hps] at h
  | error => simp [pairP, hps] at h

theorem pairP_strict_right {α β : Type} {p : Parser α} {q : Parser β}
    (hp : NoGrow p) (hq : Strict q) : Strict (pairP p q) := by
  intro s r v h
  cases hps : p s with
  | ok r1 v1 =>
    cases hqs : q r1 with
    | ok r2 v2 =>
      simp only [pairP, hps, hqs] at h
      injection h with h1 h2
      subst h1
      have e1 := hp s r1 v1 hps
      have e2 := hq r1 r2 v2 hqs
      omega
    | incomplete => simp [pairP, hps, hqs] at h
    | error => simp [pairP, hps, hqs] at h
  | incomplete => simp [pairP, hps] at h
  | error => simp [pairP, hps] at h

theorem altP_mono {α : Type} {p q : Parser α}
    (hpe : ErrStable p) (hp : Mono p) (hq : Mono q) : Mono (altP p q) := by
  intro s t r v h
  cases hps : p s with
  | ok r1 v1 =>
    simp only [altP, hps] at h
    injection h with h1 h2
    simp only [altP, hp s t r1 v1 hps]
    rw [h1, h2]
  | incomplete => simp [altP, hps] at h
  | error =>
    simp only [altP, hps] at h
    simp only [altP, hpe s t hps]
    exact hq s t r v h

theorem altP_errstable {α : Type} {p q : Parser α}
    (hpe : ErrStable p) (hqe : ErrStable q) : ErrStable (altP p q) := by
  intro s t h
  cases hps : p s with
  | ok r1 v1 => simp [altP, hps] at h
  | incomplete => simp [altP, hps] at h
  | error =>
    simp only [altP, hps] at h
    simp only [altP, hpe s t hps]
    exact hqe s t h

theorem altP_strict {α : Type} {p q : Parser α}
    (hp : Strict p) (hq : Strict q) : Strict (altP p q) := by
  intro s r v h
  cases hps : p s with
  | ok r1 v1 =>
    simp only [altP, hps] at h
    injection h with h1 h2
    exact h1 ▸ hp s r1 v1 hps
  | incomplete => simp [altP, hps] at h
  | error =>
    simp only [altP, hps] at h
    exact hq s r v h

/-! The properties of the grammar recognizers of the source. -/

theorem comment_mono : Mono comment :=
  mapP_mono _ (pairP_mono (charP_mono '#')
    (pairP_mono (isNotP_mono ['\n']) (charP_mono '\n')))

theorem comment_errstable : ErrStable comment :=
  mapP_errstable _ (pairP_errstable (charP_mono '#') (charP_errstable '#')
    (pairP_errstable (isNotP_mono ['\n']) (isNotP_errstable ['\n']) (charP_errstable '\n')))

theorem comment_strict : Strict comment :=
  mapP_strict _ (pairP_strict_left (charP_strict '#')
    (pairP_nogrow (strict_nogrow (isNotP_strict ['\n'])) (strict_nogrow (charP_strict '\n'))))

theorem spacelike_mono : Mono spacelike := takeWhileP_mono _

theorem spacelike_errstable : ErrStable spacelike := takeWhileP_errstable _

theorem spacelike_nogrow : NoGrow spacelike := takeWhileP_nogrow _

theorem name_mono : Mono name := isNotP_mono _

theorem name_errstable : ErrStable name := isNotP_errstable _

theorem name_strict : Strict name := isNotP_strict _

theorem node_name_mono : Mono node_name :=
  mapP_mono _ (pairP_mono (tagP_mono nameLit) (pairP_mono name_mono spacelike_mono))

theorem node_name_errstable : ErrStable node_name :=
  mapP_errstable _ (pairP_errstable (tagP_mono nameLit) (tagP_errstable nameLit)
    (pairP_errstable name_mono name_errstable spacelike_errstable))

theorem node_name_nogrow : NoGrow node_name :=
  mapP_nogrow _ (pairP_nogrow (tagP_nogrow nameLit)
    (pairP_nogrow (strict_nogrow name_strict) spacelike_nogrow))

theorem node_body_mono : Mono node_body :=
  mapP_mono _ (pairP_mono (charP_mono '{')
    (pairP_mono
      (mapP_mono _ (pairP_mono (takeUntilP_mono nameLit)
        (pairP_mono node_name_mono (takeUntilP_mono ['}']))))
      (charP_mono '}')))

theorem node_body_errstable : ErrStable node_body :=
  mapP_errstable _ (pairP_errstable (charP_mono '{') (charP_errstable '{')
    (pairP_errstable
      (mapP_mono _ (pairP_mono (takeUntilP_mono nameLit)
        (pairP_mono node_name_mono (takeUntilP_mono ['}']))))
      (mapP_errstable _ (pairP_errstable (takeUntilP_mono nameLit)
        (takeUntilP_errstable nameLit)
        (pairP_errstable node_name_mono node_name_errstable (takeUntilP_errstable ['}']))))
      (charP_errstable '}')))

theorem node_body_nogrow : NoGrow node_body :=
  mapP_nogrow _ (pairP_nogrow (strict_nogrow (charP_strict '{'))
    (pairP_nogrow
      (mapP_nogrow _ (pairP_nogrow (takeUntilP_nogrow nameLit)
        (pairP_nogrow node_name_nogrow (takeUntilP_nogrow ['}']))))
      (strict_nogrow (charP_strict '}'))))

theorem nodeParser_mono : Mono nodeParser :=
  pairP_mono (mapP_mono _ (pairP_mono spacelike_mono name_mono))
    (mapP_mono _ (pairP_mono spacelike_mono node_body_mono))

theorem nodeParser_errstable : ErrStable nodeParser :=
  pairP_errstable (mapP_mono _ (pairP_mono spacelike_mono name_mono))
    (mapP_errstable _ (pairP_errstable spacelike_mono spacelike_errstable name_errstable))
    (mapP_errstable _ (pairP_errstable spacelike_mono spacelike_errstable node_body_errstable))

theorem nodeParser_strict : Strict nodeParser :=
  pairP_strict_left (mapP_strict _ (pairP_strict_right spacelike_nogrow name_strict))
    (mapP_nogrow _ (pairP_nogrow spacelike_nogrow node_body_nogrow))

theorem root_mono : Mono root :=
  altP_mono (mapP_errstable _ comment_errstable) (mapP_mono _ comment_mono)
    (mapP_mono _ nodeParser_mono)

theorem root_errstable : ErrStable root :=
  altP_errstable (mapP_errstable _ comment_errstable) (mapP_errstable _ nodeParser_errstable)

theorem root_strict : Strict root :=
  altP_strict (mapP_strict _ comment_strict) (mapP_strict _ nodeParser_strict)

theorem root_nil : root [] = PResult.incomplete := by decide

/-! Driver-level lemmas: the fuelled loop is insensitive to surplus fuel,
and every yielded record strictly shrinks the measure. -/

theorem measure_state_node {p : ArseParser} {rest : List Char} {v : RootElement}
    (hr : root p.buffer = .ok rest v) :
    measureP ⟨p.capacity, rest, p.chunks⟩ < measureP p := by
  have := root_strict p.buffer rest v hr
  simp only [measureP]
  omega

theorem measure_good_chunk {p : ArseParser} {d : List Char} {cs : List Chunk}
    (hc : p.chunks = Chunk.good d :: cs) :
    measureP ⟨p.capacity, p.buffer ++ d, cs⟩ + 1 = measureP p := by
  simp only [measureP, hc, List.map_cons, List.sum_cons, chunkMeasure, chunkData,
    List.length_append]
  omega

theorem srcText_good_chunk {p : ArseParser} {d : List Char} {cs : List Chunk}
    (hc : p.chunks = Chunk.good d :: cs) :
    srcText ⟨p.capacity, p.buffer ++ d, cs⟩ = srcText p := by
  simp [srcText, hc, chunkData, List.append_assoc]

theorem nextNodeF_yield_measure :
    ∀ (f : Nat) (p : ArseParser) (n : Node) (q : ArseParser),
      nextNodeF f p = .yield n q → measureP q < measureP p := by
  intro f
  induction f with
  | zero =>
    intro p n q h
    simp [nextNodeF] at h
  | succ f ih =>
    intro p n q h
    cases hc : p.chunks with
    | nil =>
      simp only [nextNodeF, fill, hc] at h
      by_cases hb : p.buffer = []
      · simp [hb] at h
      · rw [if_neg hb] at h
        cases hr : root p.buffer with
        | ok rest v =>
          cases v with
          | node n' =>
            simp only [hr] at h
            injection h with h1 h2
            rw [← h2]
            have := measure_state_node hr
            simp only [hc] at this ⊢
            exact this
          | comment c =>
            simp only [hr] at h
            have hlt := ih _ n q h
            have := measure_state_node hr
            simp only [hc] at this hlt
            omega
        | incomplete => simp [hr] at h
        | error => simp [hr] at h
    | cons c cs =>
      cases c with
      | bad =>
        simp only [nextNodeF, fill, hc] at h
        exact NextResult.noConfusion h
      | good d =>
        simp only [nextNodeF, fill, hc] at h
        have hm := measure_good_chunk hc
        by_cases hb : p.buffer ++ d = []
        · simp [hb] at h
        · rw [if_neg hb] at h
          cases hr : root (p.buffer ++ d) with
          | ok rest v =>
            cases v with
            | node n' =>
              simp only [hr] at h
              injection h with h1 h2
              rw [← h2]
              have := measure_state_node (p := ⟨p.capacity, p.buffer ++ d, cs⟩) hr
              simp only at this
              omega
            | comment c' =>
              simp only [hr] at h
              have hlt := ih _ n q h
              have := measure_state_node (p := ⟨p.capacity, p.buffer ++ d, cs⟩) hr
              simp only at this hlt
              omega
          | incomplete =>
            simp only [hr] at h
            by_cases hd : d.length = 0
            · simp [hd] at h
            · rw [if_neg hd] at h
              have hlt := ih _ n q h
              simp only at hlt
              omega
          | error => simp [hr] at h

theorem nextNodeF_stable :
    ∀ (f g : Nat) (p : ArseParser), measureP p < f → measureP p < g →
      nextNodeF f p = nextNodeF g p := by
  intro f
  induction f with
  | zero => intro g p hf hg; omega
  | succ f ih =>
    intro g p hf hg
    cases g with
    | zero => omega
    | succ g =>
      cases hc : p.chunks with
      | nil =>
        simp only [nextNodeF, fill, hc]
        by_cases hb : p.buffer = []
        · simp [hb]
        · rw [if_neg hb, if_neg hb]
          cases hr : root p.buffer with
          | ok rest v =>
            cases v with
            | node n' => simp [hr]
            | comment c' =>
              simp only [hr]
              have hstep := measure_state_node hr
              simp only [hc] at hstep
              apply ih <;> omega
          | incomplete => simp [hr]
          | error => simp [hr]
      | cons c cs =>
        cases c with
        | bad => simp only [nextNodeF, fill, hc]
        | good d =>
          simp only [nextNodeF, fill, hc]
          have hm := measure_good_chunk hc
          by_cases hb : p.buffer ++ d = []
          · simp [hb]
          · rw [if_neg hb, if_neg hb]
            cases hr : root (p.buffer ++ d) with
            | ok rest v =>
              cases v with
              | node n' => simp [hr]
              | comment c' =>
                simp only [hr]
                have hstep := measure_state_node (p := ⟨p.capacity, p.buffer ++ d, cs⟩) hr
                simp only at hstep
                apply ih <;> omega
            | incomplete =>
              simp only [hr]
              by_cases hd : d.length = 0
              · simp [hd]
              · rw [if_neg hd, if_neg hd]
                apply ih <;> omega
            | error => simp [hr]

theorem nextNodeF_eq_nextNode {f : Nat} {p : ArseParser} (h : measureP p < f) :
    nextNodeF f p = nextNode p :=
  nextNodeF_stable f (measureP p + 1) p h (Nat.lt_succ_self _)

theorem nextNode_yield_measure {p : ArseParser} {n : Node} {q : ArseParser}
    (h : nextNode p = .yield n q) : measureP q < measureP p :=
  nextNodeF_yield_measure (measureP p + 1) p n q h

theorem runParserF_stable :
    ∀ (f g : Nat) (p : ArseParser), measureP p < f → measureP p < g →
      runParserF f p = runParserF g p := by
  intro f
  induction f with
  | zero => intro g p hf hg; omega
  | succ f ih =>
    intro g p hf hg
    cases g with
    | zero => omega
    | succ g =>
      cases hn : nextNode p with
      | yield n q =>
        simp only [runParserF, hn]
        have := nextNode_yield_measure hn
        rw [ih g q (by omega) (by omega)]
      | stop r q => simp [runParserF, hn]
      | panik => simp [runParserF, hn]

theorem runParser_unfold (p : ArseParser) :
    runParser p =
      match nextNode p with
      | .yield n q => n :: runParser q
      | .stop _ _ => []
      | .panik => [] := by
  cases hn : nextNode p with
  | yield n q =>
    simp only [runParser, runParserF, hn]
    have := nextNode_yield_measure hn
    rw [runParserF_stable (measureP p) (measureP q + 1) q (by omega) (by omega)]
    rfl
  | stop r q => simp [runParser, runParserF, hn]
  | panik => simp [runParser, runParserF, hn]

/-! The reference parse of a document: repeatedly recognize root elements
until the grammar is stuck on the full remaining text, collecting the
nodes in order and eliding comments.  A document consisting of well-formed
records and comments in any interleaving, with a remainder the grammar
cannot consume (trailing whitespace, emptiness), parses this way. -/

inductive Parses : List Char → List Node → Prop where
  | done (s : List Char) (h : root s = .incomplete ∨ root s = .error) : Parses s []
  | step_node (s s' : List Char) (n : Node) (ns : List Node)
      (h : root s = .ok s' (.node n)) (htail : Parses s' ns) : Parses s (n :: ns)
  | step_comment (s s' c : List Char) (ns : List Node)
      (h : root s = .ok s' (.comment c)) (htail : Parses s' ns) : Parses s ns

theorem parses_of_root_node {s s' : List Char} {n : Node} {ns : List Node}
    (hr : root s = .ok s' (.node n)) (hP : Parses s ns) :
    ∃ ns', ns = n :: ns' ∧ Parses s' ns' := by
  cases hP with
  | done _ h => rcases h with h | h <;> rw [hr] at h <;> exact PResult.noConfusion h
  | step_node _ s'' n' ns' h htail =>
    rw [hr] at h
    injection h with h1 h2
    injection h2 with h3
    subst h1
    subst h3
    exact ⟨ns', rfl, htail⟩
  | step_comment _ s'' c ns' h htail =>
    rw [hr] at h
    injection h with h1 h2
    exact RootElement.noConfusion h2

theorem parses_of_root_comment {s s' c : List Char} {ns : List Node}
    (hr : root s = .ok s' (.comment c)) (hP : Parses s ns) : Parses s' ns := by
  cases hP with
  | done _ h => rcases h with h | h <;> rw [hr] at h <;> exact PResult.noConfusion h
  | step_node _ s'' n' ns' h htail =>
    rw [hr] at h
    injection h with h1 h2
    exact RootElement.noConfusion h2
  | step_comment _ s'' c' ns' h htail =>
    rw [hr] at h
    injection h with h1 h2
    subst h1
    exact htail

theorem parses_of_root_stuck {s : List Char} {ns : List Node}
    (hr : root s = .incomplete ∨ root s = .error) (hP : Parses s ns) : ns = [] := by
  cases hP with
  | done _ h => rfl
  | step_node _ s'' n' ns' h htail =>
    rcases hr with hr | hr <;> rw [hr] at h <;> exact PResult.noConfusion h
  | step_comment _ s'' c' ns' h htail =>
    rcases hr with hr | hr <;> rw [hr] at h <;> exact PResult.noConfusion h

theorem goodChunks_tail {c : Chunk} {cs : List Chunk} (h : goodChunks (c :: cs)) :
    goodChunks cs := fun c' hc' => h c' (List.mem_cons_of_mem c hc')

theorem goodChunks_not_bad {cs : List Chunk} (h : goodChunks (Chunk.bad :: cs)) : False := by
  obtain ⟨d, hd, _⟩ := h Chunk.bad (List.mem_cons_self _ _)
  exact Chunk.noConfusion hd

theorem goodChunks_head {d : List Char} {cs : List Chunk}
    (h : goodChunks (Chunk.good d :: cs)) : d ≠ [] := by
  obtain ⟨d', hd, hne⟩ := h (Chunk.good d) (List.mem_cons_self _ _)
  injection hd with h1
  exact h1 ▸ hne

theorem srcText_nil_chunks {p : ArseParser} (hc : p.chunks = []) : srcText p = p.buffer := by
  simp [srcText, hc]

theorem srcText_cons_good {p : ArseParser} {d : List Char} {cs : List Chunk}
    (hc : p.chunks = Chunk.good d :: cs) :
    srcText p = (p.buffer ++ d) ++ (cs.map chunkData).flatten := by
  simp [srcText, hc, chunkData, List.append_assoc]

/-- One call to next agrees with the reference parse: on a healthy source
whose total text parses to ns, next stops when ns is empty and otherwise
yields exactly the head of ns, leaving a state whose text parses to the
tail. -/
theorem nextNode_parses :
    ∀ (m : Nat) (p : ArseParser) (ns : List Node), measureP p ≤ m →
      goodChunks p.chunks → Parses (srcText p) ns →
      (ns = [] → ∃ r q, nextNode p = .stop r q) ∧
      (∀ (n : Node) (ns' : List Node), ns = n :: ns' →
        ∃ q, nextNode p = .yield n q ∧ goodChunks q.chunks ∧ Parses (srcText q) ns') := by
  intro m
  induction m with
  | zero =>
    intro p ns hm hg hP
    have hb : p.buffer = [] := by
      have := measureP p
      simp only [measureP] at hm
      exact List.eq_nil_of_length_eq_zero (by omega)
    have hc : p.chunks = [] := by
      cases hcc : p.chunks with
      | nil => rfl
      | cons c cs =>
        exfalso
        simp only [measureP, hcc, List.map_cons, List.sum_cons, chunkMeasure] at hm
        omega
    have hnext : nextNode p = .stop .emptyEof p := by
      simp only [nextNode, nextNodeF, fill, hc]
      rw [if_pos hb]
    have hsrc : srcText p = [] := by rw [srcText_nil_chunks hc, hb]
    rw [hsrc] at hP
    have hns : ns = [] := parses_of_root_stuck (Or.inl root_nil) hP
    subst hns
    exact ⟨fun _ => ⟨_, _, hnext⟩, fun n ns' h => List.noConfusion h⟩
  | succ m ih =>
    intro p ns hm hg hP
    cases hc : p.chunks with
    | nil =>
      have hsrc := srcText_nil_chunks hc
      by_cases hb : p.buffer = []
      · have hnext : nextNode p = .stop .emptyEof p := by
          simp only [nextNode, nextNodeF, fill, hc]
          rw [if_pos hb]
        rw [hsrc, hb] at hP
        have hns : ns = [] := parses_of_root_stuck (Or.inl root_nil) hP
        subst hns
        exact ⟨fun _ => ⟨_, _, hnext⟩, fun n ns' h => List.noConfusion h⟩
      · rw [hsrc] at hP
        cases hr : root p.buffer with
        | ok rest v =>
          cases v with
          | node n0 =>
            have hnext : nextNode p = .yield n0 ⟨p.capacity, rest, []⟩ := by
              simp only [nextNode, nextNodeF, fill, hc]
              rw [if_neg hb]
              simp only [hr]
            obtain ⟨ns', hns, htail⟩ := parses_of_root_node hr hP
            subst hns
            refine ⟨fun h => List.noConfusion h, fun n ns'' h => ?_⟩
            injection h with h1 h2
            subst h1
            subst h2
            refine ⟨⟨p.capacity, rest, []⟩, hnext, fun c hmem => absurd hmem (by simp), ?_⟩
            simpa [srcText] using htail
          | comment c0 =>
            have hlt : measureP ⟨p.capacity, rest, []⟩ < measureP p := by
              have := measure_state_node hr
              rw [hc] at this
              exact this
            have hnext : nextNode p = nextNode ⟨p.capacity, rest, []⟩ := by
              have h1 : nextNode p = nextNodeF (measureP p) ⟨p.capacity, rest, []⟩ := by
                simp only [nextNode, nextNodeF, fill, hc]
                rw [if_neg hb]
                simp only [hr]
              rw [h1, nextNodeF_eq_nextNode hlt]
            have htail := parses_of_root_comment hr hP
            have hres := ih ⟨p.capacity, rest, []⟩ ns (by omega)
              (fun c hmem => absurd hmem (by simp)) (by simpa [srcText] using htail)
            rw [hnext]
            exact hres
        | incomplete =>
          have hnext : nextNode p = .stop .incompleteEof p := by
            simp only [nextNode, nextNodeF, fill, hc]
            rw [if_neg hb]
            simp [hr]
          have hns : ns = [] := parses_of_root_stuck (Or.inl hr) hP
          subst hns
          exact ⟨fun _ => ⟨_, _, hnext⟩, fun n ns' h => List.noConfusion h⟩
        | error =>
          have hnext : nextNode p = .stop .syntaxError p := by
            simp only [nextNode, nextNodeF, fill, hc]
            rw [if_neg hb]
            simp only [hr]
          have hns : ns = [] := parses_of_root_stuck (Or.inr hr) hP
          subst hns
          exact ⟨fun _ => ⟨_, _, hnext⟩, fun n ns' h => List.noConfusion h⟩
    | cons c cs =>
      cases c with
      | bad => exact absurd (hc ▸ hg) goodChunks_not_bad
      | good d =>
        have hd : d ≠ [] := goodChunks_head (hc ▸ hg)
        have hgcs : goodChunks cs := goodChunks_tail (hc ▸ hg)
        have hm1 := measure_good_chunk hc
        have hsrc := srcText_cons_good hc
        have hb : ¬(p.buffer ++ d = []) := fun h => hd (List.append_eq_nil.mp h).2
        rw [hsrc] at hP
        cases hr : root (p.buffer ++ d) with
        | ok rest v =>
          have hrext := root_mono (p.buffer ++ d) ((cs.map chunkData).flatten) rest v hr
          cases v with
          | node n0 =>
            have hnext : nextNode p = .yield n0 ⟨p.capacity, rest, cs⟩ := by
              simp only [nextNode, nextNodeF, fill, hc]
              rw [if_neg hb]
              simp only [hr]
            obtain ⟨ns', hns, htail⟩ := parses_of_root_node hrext hP
            subst hns
            refine ⟨fun h => List.noConfusion h, fun n ns'' h => ?_⟩
            injection h with h1 h2
            subst h1
            subst h2
            exact ⟨⟨p.capacity, rest, cs⟩, hnext, hgcs, by simpa [srcText] using htail⟩
          | comment c0 =>
            have hlt : measureP ⟨p.capacity, rest, cs⟩ < measureP p := by
              have := measure_state_node (p := ⟨p.capacity, p.buffer ++ d, cs⟩) hr
              simp only at this
              omega
            have hnext : nextNode p = nextNode ⟨p.capacity, rest, cs⟩ := by
              have h1 : nextNode p = nextNodeF (measureP p) ⟨p.capacity, rest, cs⟩ := by
                simp only [nextNode, nextNodeF, fill, hc]
                rw [if_neg hb]
                simp only [hr]
              rw [h1, nextNodeF_eq_nextNode hlt]
            have htail := parses_of_root_comment hrext hP
            have hres := ih ⟨p.capacity, rest, cs⟩ ns (by omega) hgcs
              (by simpa [srcText] using htail)
            rw [hnext]
            exact hres
        | incomplete =>
          have hlt : measureP ⟨p.capacity, p.buffer ++ d, cs⟩ < measureP p := by omega
          have hnext : nextNode p = nextNode ⟨p.capacity, p.buffer ++ d, cs⟩ := by
            have h1 : nextNode p = nextNodeF (measureP p) ⟨p.capacity, p.buffer ++ d, cs⟩ := by
              simp only [nextNode, nextNodeF, fill, hc]
              rw [if_neg hb]
              simp only [hr]
              rw [if_neg (fun h0 => hd (List.eq_nil_of_length_eq_zero h0))]
            rw [h1, nextNodeF_eq_nextNode hlt]
          have hres := ih ⟨p.capacity, p.buffer ++ d, cs⟩ ns (by omega) hgcs
            (by simpa [srcText] using hP)
          rw [hnext]
          exact hres
        | error =>
          have hrext := root_errstable (p.buffer ++ d) ((cs.map chunkData).flatten) hr
          have hnext : nextNode p = .stop .syntaxError ⟨p.capacity, p.buffer ++ d, cs⟩ := by
            simp only [nextNode, nextNodeF, fill, hc]
            rw [if_neg hb]
            simp only [hr]
          have hns : ns = [] := parses_of_root_stuck (Or.inr hrext) hP
          subst hns
          exact ⟨fun _ => ⟨_, _, hnext⟩, fun n ns' h => List.noConfusion h⟩

/-- Draining the iterator from any healthy state produces exactly the nodes
of the reference parse of the state's total text. -/
theorem runParser_parses :
    ∀ (m : Nat) (p : ArseParser) (ns : List Node), measureP p ≤ m →
      goodChunks p.chunks → Parses (srcText p) ns → runParser p = ns := by
  intro m
  induction m with
  | zero =>
    intro p ns hm hg hP
    rcases hns : ns with _ | ⟨n, ns'⟩
    · subst hns
      obtain ⟨r, q, hq⟩ := (nextNode_parses 0 p [] hm hg hP).1 rfl
      rw [runParser_unfold, hq]
    · subst hns
      obtain ⟨q, hy, hgq, hPq⟩ := (nextNode_parses 0 p _ hm hg hP).2 n ns' rfl
      have := nextNode_yield_measure hy
      omega
  | succ m ih =>
    intro p ns hm hg hP
    rcases hns : ns with _ | ⟨n, ns'⟩
    · subst hns
      obtain ⟨r, q, hq⟩ := (nextNode_parses (m + 1) p [] hm hg hP).1 rfl
      rw [runParser_unfold, hq]
    · subst hns
      obtain ⟨q, hy, hgq, hPq⟩ := (nextNode_parses (m + 1) p _ hm hg hP).2 n ns' rfl
      rw [runParser_unfold, hy]
      show n :: runParser q = n :: ns'
      have := nextNode_yield_measure hy
      rw [ih q ns' (by omega) hgq hPq]

/-- C1: for every document that parses (per the reference relation built on
the source grammar fn root) into the record list ns, and for every way of
splitting that document into the successive nonempty chunks a byte source
delivers, draining the iterator produces exactly ns — the records in
order, comments elided, for every chunking and any BufReader capacity. -/
theorem chunking_invariance (doc : List Char) (ns : List Node) (chunks : List Chunk)
    (cap : Nat) (hP : Parses doc ns)
    (hgood : ∀ c ∈ chunks, ∃ d, c = Chunk.good d ∧ d ≠ [])
    (hjoin : (chunks.map chunkData).flatten = doc) :
    runParser ⟨cap, [], chunks⟩ = ns := by
  apply runParser_parses (measureP ⟨cap, [], chunks⟩) _ ns le_rfl hgood
  simpa [srcText, hjoin] using hP

/-- Witness for C1: a document with a comment and one record, delivered in
two chunks split in the middle of the literal that introduces the name
parameter, drains to exactly that record. -/
theorem chunking_invariance_witness :
    runParser ⟨8192, [],
      [Chunk.good ['#', 'c', '\n', 'a', 'b', '{', 'n', 'a'],
       Chunk.good ['m', 'e', ' ', 'X', '}', '\n']]⟩ =
      [⟨['a', 'b'], ['X']⟩] :=
  chunking_invariance
    ['#', 'c', '\n', 'a', 'b', '{', 'n', 'a', 'm', 'e', ' ', 'X', '}', '\n']
    [⟨['a', 'b'], ['X']⟩]
    [Chunk.good ['#', 'c', '\n', 'a', 'b', '{', 'n', 'a'],
     Chunk.good ['m', 'e', ' ', 'X', '}', '\n']]
    8192
    (Parses.step_comment _ ['a', 'b', '{', 'n', 'a', 'm', 'e', ' ', 'X', '}', '\n'] ['c'] _
      (by decide)
      (Parses.step_node _ ['\n'] ⟨['a', 'b'], ['X']⟩ _
        (by decide)
        (Parses.done _ (Or.inl (by decide)))))
    (fun c hcm => by
      rcases List.mem_cons.mp hcm with h | hcm2
      · exact ⟨['#', 'c', '\n', 'a', 'b', '{', 'n', 'a'], h, by decide⟩
      · rcases List.mem_cons.mp hcm2 with h | hcm3
        · exact ⟨['m', 'e', ' ', 'X', '}', '\n'], h, by decide⟩
        · exact absurd hcm3 (List.not_mem_nil c))
    (by decide)

/-- C2: feeding the documented input as a single chunk, the iterator yields
exactly the sphere record, then the box record, and the third call does
not yield anything (the sequence ends). -/
theorem concrete_two_records :
    runParser (ArseParser.new [Chunk.good
      ("# hi\n\nsphere\n\x7b\n    name Sphere02\n\x7d\nbox \x7b\n    name Box02\n\x7d\n").toList]) =
      [⟨("sphere").toList, ("Sphere02").toList⟩, ⟨("box").toList, ("Box02").toList⟩] ∧
    isYield (callN 2 (ArseParser.new [Chunk.good
      ("# hi\n\nsphere\n\x7b\n    name Sphere02\n\x7d\nbox \x7b\n    name Box02\n\x7d\n").toList])) = false := by
  constructor
  · decide
  · decide

theorem dropWhile_head_false {f : Char → Bool} :
    ∀ {l : List Char} {a : Char} {t : List Char}, l.dropWhile f = a :: t → f a = false := by
  intro l
  induction l with
  | nil => intro a t h; exact List.noConfusion h
  | cons b l ih =>
    intro a t h
    by_cases hb : f b
    · rw [List.dropWhile_cons, if_pos hb] at h
      exact ih h
    · rw [List.dropWhile_cons, if_neg hb] at h
      injection h with h1 h2
      rw [← h1]
      revert hb
      cases f b <;> simp

/-- Counterexample to C3 as stated: on an input slice whose first character
is a hash but whose comment body is empty, root succeeds by recognizing a
record whose type name is the hash itself, because the comment recognizer
hard-fails on the empty body and alt falls through to the record branch. -/
theorem hash_line_counterexample :
    root ['#', '\n', '{', 'n', 'a', 'm', 'e', ' ', 'x', '}'] =
      .ok [] (.node ⟨['#'], ['x']⟩) := by decide

/-- C3 amended: for every input slice starting with a hash whose second
character (if any) is not a newline, root recognizes a comment or signals
NeedMore, never a record; only slices beginning hash-newline (an empty
comment body, on which the comment recognizer hard-fails) can fall through
to the record branch. -/
theorem hash_line_amended (rest : List Char) (h : rest.head? ≠ some '\n') :
    root ('#' :: rest) = .incomplete ∨
    ∃ (r c : List Char), root ('#' :: rest) = .ok r (.comment c) := by
  have hch : charP '#' ('#' :: rest) = .ok rest '#' := by simp [charP]
  cases hdw : rest.dropWhile (fun c => !(List.contains ['\n'] c)) with
  | nil =>
    left
    have hnot : isNotP ['\n'] rest = .incomplete := by
      simp only [isNotP]
      rw [if_pos hdw]
    simp only [root, altP, comment, delimitedP, mapP, pairP, hch, hnot]
  | cons a tail =>
    right
    have hfa := dropWhile_head_false hdw
    have ha : a = '\n' := by
      simp only [List.contains_cons, List.contains_nil, Bool.or_false, Bool.not_eq_false',
        beq_iff_eq] at hfa
      exact hfa
    subst ha
    obtain ⟨r0, rest', hrest⟩ : ∃ r0 rest', rest = r0 :: rest' := by
      cases rest with
      | nil => exact absurd hdw (by simp)
      | cons a b => exact ⟨a, b, rfl⟩
    have hr0 : r0 ≠ '\n' := by
      intro h0
      apply h
      rw [hrest, h0]
      rfl
    have htk : rest.takeWhile (fun c => !(List.contains ['\n'] c)) =
        r0 :: rest'.takeWhile (fun c => !(List.contains ['\n'] c)) := by
      rw [hrest, List.takeWhile_cons, if_pos (by simp [hr0])]
    have hnot : isNotP ['\n'] rest =
        .ok ('\n' :: tail) (r0 :: rest'.takeWhile (fun c => !(List.contains ['\n'] c))) := by
      simp only [isNotP]
      rw [if_neg (by rw [hdw]; exact fun hx => List.noConfusion hx),
        if_neg (by rw [htk]; exact fun hx => List.noConfusion hx), hdw, htk]
    have hnl : charP '\n' ('\n' :: tail) = .ok tail '\n' := by simp [charP]
    refine ⟨tail, r0 :: rest'.takeWhile (fun c => !(List.contains ['\n'] c)), ?_⟩
    simp only [root, altP, comment, delimitedP, mapP, pairP, hch, hnot, hnl]

/-- Witness for the amended C3: a hash followed by a nonempty comment body
is recognized as a comment or as NeedMore, never as a record. -/
theorem hash_line_amended_witness :
    root ('#' :: (" hi\nrest").toList) = .incomplete ∨
    ∃ (r c : List Char), root ('#' :: (" hi\nrest").toList) = .ok r (.comment c) :=
  hash_line_amended ((" hi\nrest").toList) (by decide)

/-- Counterexample to C4 as stated: spacelike is built on the streaming
take_while, so it signals NeedMore (instead of succeeding) on the empty
slice and on a slice that is entirely spacelike. -/
theorem spacelike_counterexample :
    spacelike [] = .incomplete ∧ spacelike [' ', '\t', '\r', '\n'] = .incomplete := by
  exact ⟨by decide, by decide⟩

/-- C4 amended: spacelike never hard-fails; on a slice containing at least
one non-spacelike character it succeeds, consuming the maximal spacelike
prefix (possibly empty), and it signals NeedMore exactly on the empty
slice and on slices consisting entirely of spacelike characters. -/
theorem spacelike_amended (s : List Char) :
    (spacelike s ≠ .error) ∧
    ((∃ c ∈ s, SPACELIKE_CHARS.contains c = false) →
      spacelike s = .ok (s.dropWhile (fun c => SPACELIKE_CHARS.contains c))
        (s.takeWhile (fun c => SPACELIKE_CHARS.contains c))) ∧
    ((∀ c ∈ s, SPACELIKE_CHARS.contains c = true) → spacelike s = .incomplete) := by
  refine ⟨?_, ?_, ?_⟩
  · simp only [spacelike, takeWhileP]
    by_cases hd : s.dropWhile (fun c => SPACELIKE_CHARS.contains c) = []
    · rw [if_pos hd]
      exact fun hx => PResult.noConfusion hx
    · rw [if_neg hd]
      exact fun hx => PResult.noConfusion hx
  · intro ⟨c, hc, hcf⟩
    have hd : s.dropWhile (fun c => SPACELIKE_CHARS.contains c) ≠ [] := by
      intro h0
      have := List.dropWhile_eq_nil_iff.mp h0 c hc
      rw [hcf] at this
      exact Bool.noConfusion this
    simp only [spacelike, takeWhileP]
    rw [if_neg hd]
  · intro hall
    have hd : s.dropWhile (fun c => SPACELIKE_CHARS.contains c) = [] :=
      List.dropWhile_eq_nil_iff.mpr hall
    simp only [spacelike, takeWhileP]
    rw [if_pos hd]

/-- Witness for the amended C4: a slice with a trailing non-spacelike
character succeeds, consuming the single leading space. -/
theorem spacelike_amended_witness :
    spacelike [' ', 'x'] = .ok ['x'] [' '] :=
  (spacelike_amended [' ', 'x']).2.1 ⟨'x', by decide, by decide⟩

theorem nextNodeF_stop_syntax :
    ∀ (f : Nat) (p q : ArseParser), nextNodeF f p = .stop .syntaxError q →
      q.buffer ≠ [] ∧ root q.buffer = .error := by
  intro f
  induction f with
  | zero =>
    intro p q h
    simp only [nextNodeF] at h
    injection h with h1 h2
    exact StopReason.noConfusion h1
  | succ f ih =>
    intro p q h
    cases hc : p.chunks with
    | nil =>
      simp only [nextNodeF, fill, hc] at h
      by_cases hb : p.buffer = []
      · rw [if_pos hb] at h
        injection h with h1 h2
        exact StopReason.noConfusion h1
      · rw [if_neg hb] at h
        cases hr : root p.buffer with
        | ok rest v =>
          cases v with
          | node n0 => simp [hr] at h
          | comment c0 =>
            simp only [hr] at h
            exact ih _ _ h
        | incomplete => simp [hr] at h
        | error =>
          simp only [hr] at h
          injection h with h1 h2
          subst h2
          exact ⟨hb, hr⟩
    | cons c cs =>
      cases c with
      | bad =>
        simp only [nextNodeF, fill, hc] at h
        exact NextResult.noConfusion h
      | good d =>
        simp only [nextNodeF, fill, hc] at h
        by_cases hb : p.buffer ++ d = []
        · rw [if_pos hb] at h
          injection h with h1 h2
          exact StopReason.noConfusion h1
        · rw [if_neg hb] at h
          cases hr : root (p.buffer ++ d) with
          | ok rest v =>
            cases v with
            | node n0 => simp [hr] at h
            | comment c0 =>
              simp only [hr] at h
              exact ih _ _ h
          | incomplete =>
            simp only [hr] at h
            by_cases hd : d.length = 0
            · rw [if_pos hd] at h
              injection h with h1 h2
              exact StopReason.noConfusion h1
            · rw [if_neg hd] at h
              exact ih _ _ h
          | error =>
            simp only [hr] at h
            injection h with h1 h2
            subst h2
            exact ⟨hb, hr⟩

/-- From a state whose buffer already hard-fails the grammar, one call to
next either panics on a failed read or returns None through the
syntax-error branch, and the mutated state hard-fails again: appending
refilled text never repairs a hard error. -/
theorem errored_step {p : ArseParser} (hb : p.buffer ≠ []) (he : root p.buffer = .error) :
    nextNode p = .panik ∨
    ∃ q, nextNode p = .stop .syntaxError q ∧ q.buffer ≠ [] ∧ root q.buffer = .error := by
  cases hc : p.chunks with
  | nil =>
    right
    refine ⟨p, ?_, hb, he⟩
    simp only [nextNode, nextNodeF, fill, hc]
    rw [if_neg hb]
    simp [he]
  | cons c cs =>
    cases c with
    | bad =>
      left
      simp only [nextNode, nextNodeF, fill, hc]
    | good d =>
      right
      have hb2 : p.buffer ++ d ≠ [] := fun h0 => hb (List.append_eq_nil.mp h0).1
      have he2 : root (p.buffer ++ d) = .error := root_errstable _ d he
      refine ⟨⟨p.capacity, p.buffer ++ d, cs⟩, ?_, hb2, he2⟩
      simp only [nextNode, nextNodeF, fill, hc]
      rw [if_neg hb2]
      simp [he2]

theorem errored_never_yields :
    ∀ (k : Nat) (p : ArseParser), p.buffer ≠ [] → root p.buffer = .error →
      isYield (callN k p) = false := by
  intro k
  induction k with
  | zero =>
    intro p hb he
    rcases errored_step hb he with h | ⟨q, h, _, _⟩
    · simp [callN, h, isYield]
    · simp [callN, h, isYield]
  | succ k ih =>
    intro p hb he
    rcases errored_step hb he with h | ⟨q, h, hqb, hqe⟩
    · simp [callN, h, isYield]
    · simp only [callN, h]
      exact ih q hqb hqe

/-- C5: once a call to next returns None through the syntax-error branch,
no later call ever yields a record again — the buffered prefix keeps
hard-failing however much valid-looking data is refilled behind it. -/
theorem syntax_error_halts (p q : ArseParser) (h : nextNode p = .stop .syntaxError q) :
    ∀ k : Nat, isYield (callN k p) = false := by
  have herr := nextNodeF_stop_syntax (measureP p + 1) p q h
  intro k
  cases k with
  | zero => simp [callN, h, isYield]
  | succ k =>
    simp only [callN, h]
    exact errored_never_yields k q herr.1 herr.2

/-- Witness for C5: a buffer that hard-fails the grammar, with a chunk of
perfectly valid records still unread behind it, never yields. -/
theorem syntax_error_halts_witness :
    isYield (callN 2 ⟨8192, ['{', 'x', '}'],
      [Chunk.good ['a', 'b', '{', 'n', 'a', 'm', 'e', ' ', 'X', '}', '\n']]⟩) = false :=
  syntax_error_halts
    ⟨8192, ['{', 'x', '}'], [Chunk.good ['a', 'b', '{', 'n', 'a', 'm', 'e', ' ', 'X', '}', '\n']]⟩
    ⟨8192, ['{', 'x', '}', 'a', 'b', '{', 'n', 'a', 'm', 'e', ' ', 'X', '}', '\n'], []⟩
    (by decide) 2

/-- C6: when the source is exhausted while the buffered text is an
incomplete record, next returns None without yielding anything; and the
documented input whose body lacks a name parameter produces zero records. -/
theorem incomplete_at_eof (cap : Nat) (b : List Char) (hb : b ≠ [])
    (hr : root b = .incomplete) :
    nextNode ⟨cap, b, []⟩ = .stop .incompleteEof ⟨cap, b, []⟩ ∧
    runParser (ArseParser.new [Chunk.good (("sphere\n\x7b\n\x7d\n").toList)]) = [] := by
  constructor
  · simp only [nextNode, nextNodeF, fill]
    rw [if_neg hb]
    simp [hr]
  · decide

/-- Witness for C6: the documented incomplete record at end of source makes
next return None through the incomplete branch. -/
theorem incomplete_at_eof_witness :
    nextNode ⟨8192, ("sphere\n\x7b\n\x7d\n").toList, []⟩ =
      .stop .incompleteEof ⟨8192, ("sphere\n\x7b\n\x7d\n").toList, []⟩ :=
  (incomplete_at_eof 8192 (("sphere\n\x7b\n\x7d\n").toList) (by decide) (by decide)).1

theorem mapP_ok_inv {α β : Type} {p : Parser α} {f : α → β} {s r : List Char} {w : β}
    (h : mapP p f s = .ok r w) : ∃ v, p s = .ok r v ∧ w = f v := by
  cases hp : p s with
  | ok r' v' =>
    simp only [mapP, hp] at h
    injection h with h1 h2
    subst h1
    exact ⟨v', rfl, h2.symm⟩
  | incomplete => simp [mapP, hp] at h
  | error => simp [mapP, hp] at h

theorem pairP_ok_inv {α β : Type} {p : Parser α} {q : Parser β} {s r : List Char}
    {vw : α × β} (h : pairP p q s = .ok r vw) :
    ∃ mid, p s = .ok mid vw.1 ∧ q mid = .ok r vw.2 := by
  cases hp : p s with
  | ok r1 v1 =>
    cases hq : q r1 with
    | ok r2 v2 =>
      simp only [pairP, hp, hq] at h
      injection h with h1 h2
      subst h1
      subst h2
      exact ⟨r1, rfl, hq⟩
    | incomplete => simp [pairP, hp, hq] at h
    | error => simp [pairP, hp, hq] at h
  | incomplete => simp [pairP, hp] at h
  | error => simp [pairP, hp] at h

theorem mem_takeWhile_pred {f : Char → Bool} :
    ∀ {l : List Char} {a : Char}, a ∈ l.takeWhile f → f a = true := by
  intro l
  induction l with
  | nil => intro a h; exact absurd h (List.not_mem_nil a)
  | cons b l ih =>
    intro a h
    by_cases hb : f b
    · rw [List.takeWhile_cons, if_pos hb] at h
      rcases List.mem_cons.mp h with h1 | h1
      · rw [h1]; exact hb
      · exact ih h1
    · rw [List.takeWhile_cons, if_neg hb] at h
      exact absurd h (List.not_mem_nil a)

theorem isNotP_ok_props {bad s r v : List Char} (h : isNotP bad s = .ok r v) :
    v ≠ [] ∧ ∀ c ∈ v, bad.contains c = false := by
  simp only [isNotP] at h
  by_cases hne : s.dropWhile (fun c => !(bad.contains c)) = []
  · rw [if_pos hne] at h
    exact PResult.noConfusion h
  · rw [if_neg hne] at h
    by_cases htk : s.takeWhile (fun c => !(bad.contains c)) = []
    · rw [if_pos htk] at h
      exact PResult.noConfusion h
    · rw [if_neg htk] at h
      injection h with h1 h2
      subst h2
      refine ⟨htk, fun c hc => ?_⟩
      have := mem_takeWhile_pred hc
      revert this
      cases bad.contains c <;> simp

theorem spacelike_sub_excluded (c : Char) (hc : SPACELIKE_CHARS.contains c = true) :
    nameExcluded.contains c = true := by
  simp only [SPACELIKE_CHARS, List.contains_cons, List.contains_nil, Bool.or_false,
    Bool.or_eq_true, beq_iff_eq] at hc
  rcases hc with rfl | rfl | rfl | rfl <;> decide

/-- Every record root recognizes carries a type name and a name that came
from the name recognizer: both are nonempty and avoid its excluded set. -/
theorem root_node_props {s r : List Char} {n : Node} (h : root s = .ok r (.node n)) :
    (n.node_type ≠ [] ∧ ∀ c ∈ n.node_type, nameExcluded.contains c = false) ∧
    (n.name ≠ [] ∧ ∀ c ∈ n.name, nameExcluded.contains c = false) := by
  have hB : mapP nodeParser (fun x => RootElement.node ⟨x.1, x.2⟩) s = .ok r (.node n) := by
    cases hA : comment s with
    | ok rc vc =>
      simp only [root, altP, mapP, hA] at h
      injection h with h1 h2
      exact RootElement.noConfusion h2
    | incomplete => simp [root, altP, mapP, hA] at h
    | error => simpa only [root, altP, mapP, hA] using h
  obtain ⟨vp, hnp, hval⟩ := mapP_ok_inv hB
  injection hval with hval1
  obtain ⟨mid, h1, h2⟩ := pairP_ok_inv hnp
  obtain ⟨v1, h1p, h1v⟩ := mapP_ok_inv h1
  obtain ⟨mid1, h1a, h1b⟩ := pairP_ok_inv h1p
  have hty := isNotP_ok_props h1b
  obtain ⟨v2, h2p, h2v⟩ := mapP_ok_inv h2
  obtain ⟨mid2, h2a, h2b⟩ := pairP_ok_inv h2p
  obtain ⟨v3, h3p, h3v⟩ := mapP_ok_inv h2b
  obtain ⟨mid3, h3a, h3b⟩ := pairP_ok_inv h3p
  obtain ⟨mid4, h4a, h4b⟩ := pairP_ok_inv h3b
  obtain ⟨v4, h5p, h5v⟩ := mapP_ok_inv h4a
  obtain ⟨mid5, h5a, h5b⟩ := pairP_ok_inv h5p
  obtain ⟨mid6, h6a, h6b⟩ := pairP_ok_inv h5b
  obtain ⟨v5, h7p, h7v⟩ := mapP_ok_inv h6a
  obtain ⟨mid7, h7a, h7b⟩ := pairP_ok_inv h7p
  obtain ⟨mid8, h8a, h8b⟩ := pairP_ok_inv h7b
  have hnm := isNotP_ok_props h8a
  rw [hval1]
  constructor
  · rw [h1v]
    exact hty
  · show vp.2 ≠ [] ∧ ∀ c ∈ vp.2, nameExcluded.contains c = false
    rw [h2v, h3v, h5v, h7v]
    exact hnm

theorem nextNodeF_yield_root :
    ∀ (f : Nat) (p : ArseParser) (n : Node) (q : ArseParser),
      nextNodeF f p = .yield n q → ∃ s r, root s = .ok r (.node n) := by
  intro f
  induction f with
  | zero =>
    intro p n q h
    simp [nextNodeF] at h
  | succ f ih =>
    intro p n q h
    cases hc : p.chunks with
    | nil =>
      simp only [nextNodeF, fill, hc] at h
      by_cases hb : p.buffer = []
      · simp [hb] at h
      · rw [if_neg hb] at h
        cases hr : root p.buffer with
        | ok rest v =>
          cases v with
          | node n0 =>
            simp only [hr] at h
            injection h with h1 h2
            subst h1
            exact ⟨p.buffer, rest, hr⟩
          | comment c0 =>
            simp only [hr] at h
            exact ih _ n q h
        | incomplete => simp [hr] at h
        | error => simp [hr] at h
    | cons c cs =>
      cases c with
      | bad =>
        simp only [nextNodeF, fill, hc] at h
        exact NextResult.noConfusion h
      | good d =>
        simp only [nextNodeF, fill, hc] at h
        by_cases hb : p.buffer ++ d = []
        · simp [hb] at h
        · rw [if_neg hb] at h
          cases hr : root (p.buffer ++ d) with
          | ok rest v =>
            cases v with
            | node n0 =>
              simp only [hr] at h
              injection h with h1 h2
              subst h1
              exact ⟨p.buffer ++ d, rest, hr⟩
            | comment c0 =>
              simp only [hr] at h
              exact ih _ n q h
          | incomplete =>
            simp only [hr] at h
            by_cases hd : d.length = 0
            · simp [hd] at h
            · rw [if_neg hd] at h
              exact ih _ n q h
          | error => simp [hr] at h

/-- C7: every record the iterator yields has a nonempty type name free of
the spacelike characters, braces, brackets and parentheses, and a nonempty
name free of spacelike characters. -/
theorem yielded_record_charset (p : ArseParser) (n : Node) (q : ArseParser)
    (h : nextNode p = .yield n q) :
    n.node_type ≠ [] ∧ (∀ c ∈ n.node_type, nameExcluded.contains c = false) ∧
    n.name ≠ [] ∧ (∀ c ∈ n.name, SPACELIKE_CHARS.contains c = false) := by
  obtain ⟨s, r, hr⟩ := nextNodeF_yield_root (measureP p + 1) p n q h
  obtain ⟨⟨ht1, ht2⟩, hn1, hn2⟩ := root_node_props hr
  refine ⟨ht1, ht2, hn1, fun c hc => ?_⟩
  have h3 := hn2 c hc
  cases hsp : SPACELIKE_CHARS.contains c with
  | false => rfl
  | true => rw [spacelike_sub_excluded c hsp] at h3; exact Bool.noConfusion h3

/-- Witness for C7: the record yielded from a small concrete source has the
stated shape. -/
theorem yielded_record_charset_witness :
    (['a', 'b'] : List Char) ≠ [] ∧
    (∀ c ∈ (['a', 'b'] : List Char), nameExcluded.contains c = false) ∧
    (['X'] : List Char) ≠ [] ∧
    (∀ c ∈ (['X'] : List Char), SPACELIKE_CHARS.contains c = false) :=
  yielded_record_charset
    (ArseParser.new [Chunk.good ['a', 'b', '{', 'n', 'a', 'm', 'e', ' ', 'X', '}', '\n']])
    ⟨['a', 'b'], ['X']⟩
    ⟨8192, ['\n'], []⟩
    (by decide)

theorem startsWith_self_append : ∀ (t s : List Char), startsWith t (t ++ s) = true := by
  intro t
  induction t with
  | nil => intro s; rfl
  | cons a t ih =>
    intro s
    simp only [List.cons_append, startsWith, List.append_eq, ih s]
    simp

theorem matchLit_self_append : ∀ (t s : List Char), matchLit t (t ++ s) = .ok s () := by
  intro t
  induction t with
  | nil => intro s; rfl
  | cons a t ih =>
    intro s
    simp only [List.cons_append, matchLit, if_pos rfl]
    exact ih s

theorem splitUntil_self_append (t x : List Char) :
    splitUntil t (t ++ x) = some ([], t ++ x) := by
  cases ht : t with
  | nil =>
    cases x with
    | nil => simp [splitUntil, startsWith]
    | cons c x' => simp [splitUntil, startsWith]
  | cons a t' =>
    have hs := startsWith_self_append (a :: t') x
    rw [List.cons_append] at hs
    simp only [List.cons_append, splitUntil, List.append_eq]
    rw [if_pos hs]

theorem splitUntil_no_early :
    ∀ (g t x : List Char),
      (∀ i, i < g.length → startsWith t ((g ++ (t ++ x)).drop i) = false) →
      splitUntil t (g ++ (t ++ x)) = some (g, t ++ x) := by
  intro g
  induction g with
  | nil =>
    intro t x h
    simp only [List.nil_append]
    exact splitUntil_self_append t x
  | cons b g' ih =>
    intro t x h
    have h0 := h 0 (by simp)
    simp only [List.drop_zero, List.cons_append] at h0
    simp only [List.cons_append, splitUntil, List.append_eq]
    rw [if_neg (by simp [h0])]
    rw [ih t x (fun i hi => by
      have hi1 := h (i + 1) (by simpa using Nat.succ_lt_succ hi)
      simpa [List.cons_append, List.drop_succ_cons] using hi1)]

theorem mem_dropWhile_of_false {f : Char → Bool} {a : Char} (ha : f a = false) :
    ∀ {l : List Char}, a ∈ l → a ∈ l.dropWhile f := by
  intro l
  induction l with
  | nil => intro h; exact absurd h (List.not_mem_nil a)
  | cons b l ih =>
    intro h
    by_cases hb : f b
    · rw [List.dropWhile_cons, if_pos hb]
      rcases List.mem_cons.mp h with h1 | h1
      · exfalso
        rw [h1] at ha
        rw [ha] at hb
        exact Bool.noConfusion hb
      · exact ih h1
    · rw [List.dropWhile_cons, if_neg hb]
      exact h

theorem splitUntil_single_mem {a : Char} :
    ∀ {l : List Char}, a ∈ l → ∃ u w, splitUntil [a] l = some (u, a :: w) := by
  intro l
  induction l with
  | nil => intro h; exact absurd h (List.not_mem_nil a)
  | cons b l ih =>
    intro h
    by_cases hb : b = a
    · subst hb
      refine ⟨[], l, ?_⟩
      simp [splitUntil, startsWith]
    · rcases List.mem_cons.mp h with h1 | h1
      · exact absurd h1.symm hb
      · obtain ⟨u, w, hw⟩ := ih h1
        refine ⟨b :: u, w, ?_⟩
        simp only [splitUntil]
        rw [if_neg (by simp [startsWith, hb]), hw]

theorem takeWhile_append_exact {f : Char → Bool} :
    ∀ (id z : List Char), (∀ c ∈ id, f c = true) →
      (match z with | [] => True | c :: _ => f c = false) →
      (id ++ z).takeWhile f = id ∧ (id ++ z).dropWhile f = z := by
  intro id
  induction id with
  | nil =>
    intro z hall hz
    cases z with
    | nil => exact ⟨rfl, rfl⟩
    | cons c z' =>
      simp only at hz
      simp only [List.nil_append, List.takeWhile_cons, List.dropWhile_cons, hz]
      exact ⟨rfl, rfl⟩
  | cons a id' ih =>
    intro z hall hz
    have ha : f a = true := hall a (List.mem_cons_self _ _)
    have := ih z (fun c hc => hall c (List.mem_cons_of_mem a hc)) hz
    simp only [List.cons_append, List.takeWhile_cons, List.dropWhile_cons, ha]
    simp only [if_true]
    exact ⟨by rw [this.1], this.2⟩

/-- C8: a record body with arbitrary extra text between the opening brace
and the first occurrence of the name literal, and arbitrary extra text
between the name value and the first following closing brace, still
succeeds and returns exactly the identifier after that first literal. -/
theorem node_body_permissive (g1 ident ws g2 rest : List Char)
    (hfirst : ∀ i, i < g1.length →
      startsWith nameLit
        ((g1 ++ (nameLit ++ (ident ++ (ws ++ (g2 ++ ('}' :: rest)))))).drop i) = false)
    (hid1 : ident ≠ [])
    (hid2 : ∀ c ∈ ident, nameExcluded.contains c = false)
    (hws : ∀ c ∈ ws, SPACELIKE_CHARS.contains c = true)
    (hbd : match ws ++ g2 with | [] => True | c :: _ => nameExcluded.contains c = true) :
    ∃ r, node_body ('{' :: (g1 ++ (nameLit ++ (ident ++ (ws ++ (g2 ++ ('}' :: rest))))))) =
      .ok r ident := by
  have hzhead : ∀ (c : Char) (zz : List Char),
      ws ++ (g2 ++ ('}' :: rest)) = c :: zz → (!(nameExcluded.contains c)) = false := by
    intro c zz hcz
    cases hws0 : ws with
    | nil =>
      cases hg0 : g2 with
      | nil =>
        rw [hws0, hg0] at hcz
        simp only [List.nil_append] at hcz
        injection hcz with hc1 hc2
        rw [← hc1]
        decide
      | cons g g2' =>
        rw [hws0, hg0] at hcz
        simp only [List.nil_append, List.cons_append] at hcz
        injection hcz with hc1 hc2
        rw [← hc1]
        have hbd2 : nameExcluded.contains g = true := by
          rw [hws0, hg0] at hbd
          simp only [List.nil_append] at hbd
          exact hbd
        rw [hbd2]
        rfl
    | cons w ws' =>
      rw [hws0] at hcz
      rw [List.cons_append] at hcz
      injection hcz with hc1 hc2
      rw [← hc1]
      have hwsp : SPACELIKE_CHARS.contains w = true :=
        hws w (by rw [hws0]; exact List.mem_cons_self _ _)
      rw [spacelike_sub_excluded w hwsp]
      rfl
  have hz_ne : ws ++ (g2 ++ ('}' :: rest)) ≠ [] := by
    intro h0
    have h1 := (List.append_eq_nil.mp h0).2
    have h2 := (List.append_eq_nil.mp h1).2
    exact List.noConfusion h2
  have htw := takeWhile_append_exact (f := fun c => !(nameExcluded.contains c)) ident
    (ws ++ (g2 ++ ('}' :: rest)))
    (fun c hc => by simp only; rw [hid2 c hc]; rfl)
    (by
      cases hzz : ws ++ (g2 ++ ('}' :: rest)) with
      | nil => trivial
      | cons c zz => exact hzhead c zz hzz)
  have h4 : name (ident ++ (ws ++ (g2 ++ ('}' :: rest)))) =
      .ok (ws ++ (g2 ++ ('}' :: rest))) ident := by
    simp only [name, isNotP, htw.1, htw.2]
    rw [if_neg hz_ne, if_neg hid1]
  have hmem_z : '}' ∈ ws ++ (g2 ++ ('}' :: rest)) :=
    List.mem_append.mpr (Or.inr (List.mem_append.mpr (Or.inr (List.mem_cons_self _ _))))
  have hsp_brace : (fun c => SPACELIKE_CHARS.contains c) '}' = false := by decide
  have hmem_z2 : '}' ∈ (ws ++ (g2 ++ ('}' :: rest))).dropWhile
      (fun c => SPACELIKE_CHARS.contains c) :=
    mem_dropWhile_of_false hsp_brace hmem_z
  have hz2_ne : (ws ++ (g2 ++ ('}' :: rest))).dropWhile
      (fun c => SPACELIKE_CHARS.contains c) ≠ [] := List.ne_nil_of_mem hmem_z2
  have h5 : spacelike (ws ++ (g2 ++ ('}' :: rest))) =
      .ok ((ws ++ (g2 ++ ('}' :: rest))).dropWhile (fun c => SPACELIKE_CHARS.contains c))
        ((ws ++ (g2 ++ ('}' :: rest))).takeWhile (fun c => SPACELIKE_CHARS.contains c)) := by
    simp only [spacelike, takeWhileP]
    rw [if_neg hz2_ne]
  obtain ⟨u, w, hw⟩ := splitUntil_single_mem hmem_z2
  have h6 : takeUntilP ['}'] ((ws ++ (g2 ++ ('}' :: rest))).dropWhile
      (fun c => SPACELIKE_CHARS.contains c)) = .ok ('}' :: w) u := by
    simp only [takeUntilP, hw]
  have h7 : charP '}' ('}' :: w) = .ok w '}' := by simp [charP]
  have hsplit := splitUntil_no_early g1 nameLit (ident ++ (ws ++ (g2 ++ ('}' :: rest)))) hfirst
  have h2 : takeUntilP nameLit (g1 ++ (nameLit ++ (ident ++ (ws ++ (g2 ++ ('}' :: rest)))))) =
      .ok (nameLit ++ (ident ++ (ws ++ (g2 ++ ('}' :: rest))))) g1 := by
    simp only [takeUntilP, hsplit]
  have h3 : tagP nameLit (nameLit ++ (ident ++ (ws ++ (g2 ++ ('}' :: rest))))) =
      .ok (ident ++ (ws ++ (g2 ++ ('}' :: rest)))) nameLit := by
    simp only [tagP, matchLit_self_append]
  have h1 : charP '{' ('{' :: (g1 ++ (nameLit ++ (ident ++ (ws ++ (g2 ++ ('}' :: rest))))))) =
      .ok (g1 ++ (nameLit ++ (ident ++ (ws ++ (g2 ++ ('}' :: rest)))))) '{' := by
    simp [charP]
  refine ⟨w, ?_⟩
  simp only [node_body, node_name, delimitedP, mapP, pairP, h1, h2, h3, h4, h5, h6, h7]

/-- Witness for C8: a body with junk before the name literal and junk
after the name value still returns the identifier. -/
theorem node_body_permissive_witness :
    ∃ r, node_body ('{' :: (([' ', 'q', ' ']) ++ (nameLit ++ ((['F', 'o', 'o']) ++
      (([' ']) ++ ((['j', 'k', ' ']) ++ ('}' :: ([' ', 't'])))))))) =
      .ok r ['F', 'o', 'o'] :=
  node_body_permissive [' ', 'q', ' '] ['F', 'o', 'o'] [' '] ['j', 'k', ' '] [' ', 't']
    (by decide) (by decide) (by decide) (by decide)
    (show nameExcluded.contains ' ' = true by decide)

/-- C9: when the next read fails — an I/O error from the source or bytes
that are not valid UTF-8, both of which the source unwraps into a panic —
the call terminates without yielding a record and without reading again:
the outcome is the terminal panic, the drained sequence holds no further
items, and iterated calls never yield. -/
theorem refill_failure_terminal (cap : Nat) (b : List Char) (cs : List Chunk) :
    nextNode ⟨cap, b, Chunk.bad :: cs⟩ = .panik ∧
    runParser ⟨cap, b, Chunk.bad :: cs⟩ = [] ∧
    ∀ k, isYield (callN k ⟨cap, b, Chunk.bad :: cs⟩) = false := by
  have h1 : nextNode ⟨cap, b, Chunk.bad :: cs⟩ = .panik := by
    simp only [nextNode, nextNodeF, fill]
  refine ⟨h1, ?_, ?_⟩
  · rw [runParser_unfold, h1]
  · intro k
    cases k with
    | zero => simp [callN, h1, isYield]
    | succ k => simp [callN, h1, isYield]

/-- C10: with_capacity ignores its capacity argument and always builds the
parser with the fixed 4 MiB BufReader, so any two capacity arguments give
the very same parser and the same record sequence from the same source. -/
theorem with_capacity_ignored (chunks : List Chunk) (c c' : Nat) :
    ArseParser.with_capacity chunks c = ArseParser.with_capacity chunks c' ∧
    (ArseParser.with_capacity chunks c).capacity = 4 * 1024 * 1024 ∧
    runParser (ArseParser.with_capacity chunks c) =
      runParser (ArseParser.with_capacity chunks c') :=
  ⟨rfl, rfl, rfl⟩
